import Mathlib

/-!
# Verification of `matrix.py` (gartus repository)

Shallow embedding of the two dynamic-programming routines of `src/matrix.py`:

* `find_least_seam d m n` — the grid "seam" DP (lines 11–25 of the source);
* `break_string_cost L cuts` — the interval "string cutting" DP
  (lines 29–45 of the source).

Python's `float('inf')` sentinel, and any value produced by an operation that
Python would abort with an exception (out-of-range list indexing), are both
modelled by `none : Option Int`; every in-range integer value is `some z`.
Python's negative-index wrap-around (`l[-1]` is the last element) is modelled
explicitly by `pyGetO`.
-/

namespace Gartus

/-! ## List minimum/maximum helpers -/

/-- Minimum of a list of integers (`0` as junk value on the empty list; every
use below is on a provably non-empty list). -/
def imin : List Int → Int
  | [] => 0
  | [x] => x
  | x :: y :: xs => min x (imin (y :: xs))

/-- Minimum of a list of naturals below an initial bound `a` (`foldr`). -/
def nmin (a : Nat) (l : List Nat) : Nat := l.foldr min a

/-- Maximum of a list of naturals above an initial bound `a` (`foldr`). -/
def nmax (a : Nat) (l : List Nat) : Nat := l.foldr max a

theorem imin_cons (x : Int) (l : List Int) (hne : l ≠ []) :
    imin (x :: l) = min x (imin l) := by
  cases l with
  | nil => cases hne rfl
  | cons y ys => rfl

theorem imin_le {l : List Int} {x : Int} (hx : x ∈ l) : imin l ≤ x := by
  induction l with
  | nil => cases hx
  | cons y ys ih =>
    cases ys with
    | nil =>
      rcases List.mem_cons.mp hx with h | h
      · subst h; exact le_refl _
      · cases h
    | cons z zs =>
      rcases List.mem_cons.mp hx with h | h
      · subst h; exact min_le_left _ _
      · exact le_trans (min_le_right _ _) (ih h)

theorem le_imin {l : List Int} {c : Int} (hne : l ≠ []) (h : ∀ x ∈ l, c ≤ x) :
    c ≤ imin l := by
  induction l with
  | nil => cases hne rfl
  | cons y ys ih =>
    cases ys with
    | nil => simpa [imin] using h y (by simp)
    | cons z zs =>
      exact le_min (h y (by simp))
        (ih (by simp) (fun x hx => h x (List.mem_cons_of_mem _ hx)))

theorem imin_mem {l : List Int} (hne : l ≠ []) : imin l ∈ l := by
  induction l with
  | nil => cases hne rfl
  | cons y ys ih =>
    cases ys with
    | nil => simp [imin]
    | cons z zs =>
      rcases min_cases y (imin (z :: zs)) with ⟨h, _⟩ | ⟨h, _⟩
      · rw [imin_cons _ _ (by simp), h]; exact List.mem_cons_self _ _
      · rw [imin_cons _ _ (by simp), h]
        exact List.mem_cons_of_mem _ (ih (by simp))

theorem foldl_min_imin : ∀ (l : List Int) (a : Int), l.foldl min a = imin (a :: l)
  | [], a => by simp [imin]
  | x :: xs, a => by
    rw [List.foldl_cons, foldl_min_imin xs (min a x)]
    rw [imin_cons a (x :: xs) (by simp)]
    cases xs with
    | nil => simp [imin]
    | cons z zs =>
      rw [imin_cons (min a x) (z :: zs) (by simp),
        imin_cons x (z :: zs) (by simp), min_assoc]

/-! ## Option-valued arithmetic (`none` = Python `float('inf')` / error) -/

/-- Addition; `none` (infinity/error) propagates. -/
def oadd : Option Int → Option Int → Option Int
  | some a, some b => some (a + b)
  | _, _ => none

/-- Subtraction; `none` propagates. -/
def osub : Option Int → Option Int → Option Int
  | some a, some b => some (a - b)
  | _, _ => none

/-- Strict comparison with `none` acting as `+∞`, exactly as Python's float
comparisons behave: every finite value is `< inf`, and `inf < x` is false. -/
def olt : Option Int → Option Int → Bool
  | some a, some b => decide (a < b)
  | some _, none => true
  | none, _ => false

/-- Binary minimum with `none` acting as `+∞`. -/
def omin : Option Int → Option Int → Option Int
  | none, b => b
  | a, none => a
  | some a, some b => some (min a b)

/-! ## `break_string_cost` (source lines 29–45)

The Python table `dp` is an `(n+1) × (n+1)` list of `(cost, splitIndex)`
tuples; we embed it as a function `Nat → Nat → Option Int × Int` updated
pointwise, initialised everywhere to `(some 0, -1)` exactly as
`[[(0, -1) for _ in range(m)] for _ in range(m)]` does. -/

/-- `string_start = 0 if i == 0 else cuts[i - 1]` (source line 41);
out-of-range indexing yields `none` (Python would raise). -/
def stringStart (cuts : List Int) (i : Nat) : Option Int :=
  if i = 0 then some 0 else cuts.get? (i - 1)

/-- `string_end = string_length if j >= n else cuts[j]` (source line 42). -/
def stringEnd (L : Int) (cuts : List Int) (j : Nat) : Option Int :=
  if cuts.length ≤ j then some L else cuts.get? j

/-- One iteration of the inner `for k in range(i, j)` loop (source lines 37–40):
`cost = (dp[i][k][0] + dp[k+1][j][0], k)`, kept when strictly below the
running minimum (which starts at `(inf, -1)`). -/
def innerStep (dp : Nat → Nat → Option Int × Int) (i j : Nat)
    (acc : Option Int × Int) (k : Nat) : Option Int × Int :=
  if olt (oadd (dp i k).1 (dp (k + 1) j).1) acc.1 then
    (oadd (dp i k).1 (dp (k + 1) j).1, k)
  else acc

/-- The full inner loop: minimum (with arg) over `k ∈ [i, j)`. -/
def innerMin (dp : Nat → Nat → Option Int × Int) (i j : Nat) : Option Int × Int :=
  (List.range' i (j - i)).foldl (innerStep dp i j) (none, -1)

/-- `dp[i][j] = (min_cost[0] + string_end - string_start, min_cost[1])`
(source line 43). -/
def updCell (L : Int) (cuts : List Int) (dp : Nat → Nat → Option Int × Int)
    (i j : Nat) : Option Int × Int :=
  (oadd (innerMin dp i j).1 (osub (stringEnd L cuts j) (stringStart cuts i)),
   (innerMin dp i j).2)

/-- Pointwise update of the embedded table. -/
def tupdate (dp : Nat → Nat → Option Int × Int) (a b : Nat)
    (c : Option Int × Int) : Nat → Nat → Option Int × Int :=
  fun x y => if x = a ∧ y = b then c else dp x y

/-- The `for i in range(0, m - num_break_points)` pass at a fixed width
(source lines 34–43); `m = cuts.length + 1`. -/
def widthPass (L : Int) (cuts : List Int) (w : Nat)
    (dp : Nat → Nat → Option Int × Int) : Nat → Nat → Option Int × Int :=
  (List.range (cuts.length + 1 - w)).foldl
    (fun t i => tupdate t i (i + w) (updCell L cuts t i (i + w))) dp

/-- The whole table after the `for num_break_points in range(1, m)` loop
(source lines 32–43). -/
def breakStringTable (L : Int) (cuts : List Int) : Nat → Nat → Option Int × Int :=
  (List.range' 1 cuts.length).foldl (fun t w => widthPass L cuts w t)
    (fun _ _ => (some 0, -1))

/-- `break_string_cost(string_length, cuts)` — returns `dp[0][n][0]`
(source lines 44–45). -/
def break_string_cost (L : Int) (cuts : List Int) : Option Int :=
  (breakStringTable L cuts 0 cuts.length).1

/-! ## The mathematical interval recurrence

Boundary `t ∈ [0, n+1]` sits at position `bnd L cuts t`: the left string end
for `t = 0`, `cuts[t-1]` for `1 ≤ t ≤ n`, the right string end `L` for
`t = n+1`.  The Python cell `dp[i][j]` spans boundaries `i` to `j+1`.  The
recurrence `icost b i j` below (fuel-free wrapper around `icostF`) is the
standard interval-cut optimum over boundary indices: zero on a single
segment, otherwise the span length plus the best split. -/

/-- Position of boundary index `t`. -/
def bnd (L : Int) (cuts : List Int) (t : Nat) : Int :=
  if t = 0 then 0 else if t ≤ cuts.length then cuts.getD (t - 1) 0 else L

/-- Fuel-indexed interval recurrence. -/
def icostF (b : Nat → Int) : Nat → Nat → Nat → Int
  | 0, _, _ => 0
  | f + 1, i, j =>
    if j ≤ i + 1 then 0
    else (b j - b i) +
      imin ((List.range' (i + 1) (j - i - 1)).map
        (fun k => icostF b f i k + icostF b f k j))

/-- Interval-cut optimum between boundaries `i < j`. -/
def icost (b : Nat → Int) (i j : Nat) : Int := icostF b (j - i) i j

theorem icostF_fuel (b : Nat → Int) :
    ∀ f g i j, j - i ≤ f → j - i ≤ g → icostF b f i j = icostF b g i j := by
  intro f
  induction f with
  | zero =>
    intro g i j hf _
    cases g with
    | zero => rfl
    | succ g => simp only [icostF, if_pos (by omega : j ≤ i + 1)]
  | succ f ih =>
    intro g i j hf hg
    cases g with
    | zero => simp only [icostF, if_pos (by omega : j ≤ i + 1)]
    | succ g =>
      by_cases hj : j ≤ i + 1
      · simp only [icostF, if_pos hj]
      · simp only [icostF, if_neg hj]
        congr 1
        congr 1
        apply List.map_congr_left
        intro k hk
        have hk' := List.mem_range'_1.mp hk
        have h1 : k - i ≤ f := by omega
        have h2 : j - k ≤ f := by omega
        have h3 : k - i ≤ g := by omega
        have h4 : j - k ≤ g := by omega
        rw [ih g i k h1 h3, ih g k j h2 h4]

theorem icost_eq_fuel (b : Nat → Int) (f i j : Nat) (h : j - i ≤ f) :
    icostF b f i j = icost b i j :=
  icostF_fuel b f (j - i) i j h (le_refl _)

theorem icost_base (b : Nat → Int) (i j : Nat) (h : j ≤ i + 1) :
    icost b i j = 0 := by
  unfold icost
  rcases Nat.eq_zero_or_eq_succ_pred (j - i) with h0 | h0
  · rw [h0]; rfl
  · rw [h0]; simp only [icostF, if_pos h]

theorem icost_step (b : Nat → Int) (i j : Nat) (h : i + 1 < j) :
    icost b i j = (b j - b i) +
      imin ((List.range' (i + 1) (j - i - 1)).map
        (fun k => icost b i k + icost b k j)) := by
  unfold icost
  have hji : j - i = (j - i - 1) + 1 := by omega
  rw [hji]
  simp only [icostF, if_neg (by omega : ¬ j ≤ i + 1)]
  congr 1
  congr 1
  apply List.map_congr_left
  intro k hk
  have hk' := List.mem_range'_1.mp hk
  rw [icost_eq_fuel b (j - i - 1) i k (by omega),
    icost_eq_fuel b (j - i - 1) k j (by omega)]
  rfl

/-- Shift the inner-loop index: the Python loop runs `k ∈ [i, j)` and splits
at boundary `k+1`; the recurrence's split index runs over `[i+1, j]`. -/
theorem map_range'_shift {α : Type} (f : Nat → α) :
    ∀ (c s : Nat), (List.range' s c).map (fun k => f (k + 1)) =
      (List.range' (s + 1) c).map f := by
  intro c
  induction c with
  | zero => intro s; rfl
  | succ c ih =>
    intro s
    rw [List.range'_succ s c 1, List.range'_succ (s + 1) c 1]
    simp only [List.map_cons]
    rw [ih (s + 1)]

/-! ## Characterising the table: `dp[i][j]` holds `icost` of boundaries `(i, j+1)` -/

theorem get?_eq_some_getD :
    ∀ (l : List Int) (t : Nat), t < l.length → l.get? t = some (l.getD t 0)
  | [], t, h => by simp at h
  | x :: xs, 0, _ => rfl
  | x :: xs, t + 1, h =>
    get?_eq_some_getD xs t (by simpa using Nat.lt_of_succ_lt_succ h)

theorem stringStart_eq (L : Int) (cuts : List Int) (i : Nat)
    (h : i < cuts.length ∨ i = 0) :
    stringStart cuts i = some (bnd L cuts i) := by
  rcases Nat.eq_zero_or_pos i with h0 | h0
  · subst h0; rfl
  · have hi : i < cuts.length := by
      rcases h with h | h
      · exact h
      · omega
    unfold stringStart bnd
    rw [if_neg (by omega), if_neg (by omega), if_pos (by omega)]
    exact get?_eq_some_getD cuts (i - 1) (by omega)

theorem stringEnd_eq (L : Int) (cuts : List Int) (j : Nat)
    (h : j ≤ cuts.length) :
    stringEnd L cuts j = some (bnd L cuts (j + 1)) := by
  unfold stringEnd bnd
  by_cases hj : cuts.length ≤ j
  · rw [if_pos hj, if_neg (by omega), if_neg (by omega)]
  · rw [if_neg hj, if_neg (by omega), if_pos (by omega)]
    simpa using get?_eq_some_getD cuts j (by omega)

theorem innerStep_foldl (dp : Nat → Nat → Option Int × Int) (i j : Nat)
    (v : Nat → Int) :
    ∀ (l : List Nat) (acc : Option Int × Int) (a : Int),
      (∀ k ∈ l, oadd (dp i k).1 (dp (k + 1) j).1 = some (v k)) →
      acc.1 = some a →
      (l.foldl (innerStep dp i j) acc).1 = some ((l.map v).foldl min a)
  | [], acc, a, _, hacc => by simpa using hacc
  | k :: ks, acc, a, h, hacc => by
    have hk := h k (by simp)
    have hrest : ∀ k' ∈ ks, oadd (dp i k').1 (dp (k' + 1) j).1 = some (v k') :=
      fun k' hk' => h k' (List.mem_cons_of_mem _ hk')
    rw [List.foldl_cons, List.map_cons, List.foldl_cons]
    have hstep : (innerStep dp i j acc k).1 = some (min a (v k)) := by
      unfold innerStep
      rw [hk, hacc]
      by_cases hlt : v k < a
      · rw [if_pos (by simpa [olt] using hlt)]
        simp [min_eq_right (le_of_lt hlt)]
      · rw [if_neg (by simpa [olt] using hlt)]
        rw [hacc, min_eq_left (by omega)]
    exact innerStep_foldl dp i j v ks _ (min a (v k)) hrest hstep

theorem innerMin_spec (dp : Nat → Nat → Option Int × Int) (i j : Nat)
    (v : Nat → Int) (hij : i < j)
    (h : ∀ k ∈ List.range' i (j - i), oadd (dp i k).1 (dp (k + 1) j).1 = some (v k)) :
    (innerMin dp i j).1 = some (imin ((List.range' i (j - i)).map v)) := by
  unfold innerMin
  have hji : j - i = (j - i - 1) + 1 := by omega
  rw [hji, List.range'_succ i (j - i - 1) 1, List.foldl_cons]
  have hmem : ∀ k ∈ List.range' i (j - i), oadd (dp i k).1 (dp (k + 1) j).1 = some (v k) := h
  have hi : oadd (dp i i).1 (dp (i + 1) j).1 = some (v i) := by
    apply hmem
    rw [hji, List.range'_succ i (j - i - 1) 1]
    simp
  have hstep : (innerStep dp i j (none, -1) i).1 = some (v i) := by
    unfold innerStep
    rw [hi]
    rw [if_pos (by simp [olt])]
  rw [innerStep_foldl dp i j v (List.range' (i + 1) (j - i - 1)) _ (v i)
    (fun k' hk' => by
      apply hmem
      rw [hji, List.range'_succ i (j - i - 1) 1]
      exact List.mem_cons_of_mem _ hk') hstep]
  rw [List.map_cons, foldl_min_imin]

/-- The invariant of the two nested write loops: after the passes for widths
`1..w` plus the first `p` iterations of the width-`(w+1)` pass, every written
cell `(i, j)` holds cost `icost (bnd L cuts) i (j+1)`, and every other cell
still holds the initialiser `(0, -1)`. -/
def TblInv (L : Int) (cuts : List Int) (w p : Nat)
    (t : Nat → Nat → Option Int × Int) : Prop :=
  (∀ i j, i < j → j ≤ cuts.length → (j - i ≤ w ∨ (j - i = w + 1 ∧ i < p)) →
    (t i j).1 = some (icost (bnd L cuts) i (j + 1))) ∧
  (∀ i j, ¬(i < j ∧ j ≤ cuts.length ∧ (j - i ≤ w ∨ (j - i = w + 1 ∧ i < p))) →
    t i j = (some 0, -1))

theorem updCell_cost (L : Int) (cuts : List Int)
    (t : Nat → Nat → Option Int × Int) (w i j : Nat)
    (hw : j = i + w + 1) (hj : j ≤ cuts.length)
    (ha : ∀ i' j', i' < j' → j' ≤ cuts.length → j' - i' ≤ w →
      (t i' j').1 = some (icost (bnd L cuts) i' (j' + 1)))
    (hb : ∀ i' j', ¬ i' < j' → t i' j' = (some 0, -1)) :
    (updCell L cuts t i j).1 = some (icost (bnd L cuts) i (j + 1)) := by
  have hij : i < j := by omega
  have hmin := innerMin_spec t i j
    (fun k => icost (bnd L cuts) i (k + 1) + icost (bnd L cuts) (k + 1) (j + 1))
    hij
    (by
      intro k hk
      have hk' := List.mem_range'_1.mp hk
      have h1 : (t i k).1 = some (icost (bnd L cuts) i (k + 1)) := by
        rcases Nat.lt_or_ge i k with hlt | hge
        · exact ha i k hlt (by omega) (by omega)
        · have hik : i = k := by omega
          rw [hik, hb k k (by omega)]
          rw [icost_base _ _ _ (by omega)]
      have h2 : (t (k + 1) j).1 = some (icost (bnd L cuts) (k + 1) (j + 1)) := by
        rcases Nat.lt_or_ge (k + 1) j with hlt | hge
        · exact ha (k + 1) j hlt hj (by omega)
        · have hkj : k + 1 = j := by omega
          rw [hkj, hb j j (by omega)]
          rw [icost_base _ _ _ (by omega)]
      rw [h1, h2]
      rfl)
  unfold updCell
  rw [hmin, stringStart_eq L cuts i (by omega), stringEnd_eq L cuts j hj]
  show some _ = _
  rw [icost_step (bnd L cuts) i (j + 1) (by omega)]
  have hshift := map_range'_shift
    (fun k' => icost (bnd L cuts) i k' + icost (bnd L cuts) k' (j + 1)) (j - i) i
  have hlen : j + 1 - i - 1 = j - i := by omega
  rw [hlen, ← hshift]
  rw [add_comm]

theorem passAux (L : Int) (cuts : List Int) (w : Nat) :
    ∀ (c p : Nat) (t : Nat → Nat → Option Int × Int),
      TblInv L cuts w p t → p + c = cuts.length - w →
      TblInv L cuts w (p + c)
        ((List.range' p c).foldl
          (fun t i => tupdate t i (i + (w + 1)) (updCell L cuts t i (i + (w + 1)))) t)
  | 0, p, t, h, _ => by simpa using h
  | c + 1, p, t, h, hpc => by
    rw [List.range'_succ p c 1, List.foldl_cons]
    set t' := tupdate t p (p + (w + 1)) (updCell L cuts t p (p + (w + 1))) with ht'
    have hjn : p + (w + 1) ≤ cuts.length := by omega
    have hnew : (t' p (p + (w + 1))).1 =
        some (icost (bnd L cuts) p (p + (w + 1) + 1)) := by
      rw [ht']
      unfold tupdate
      rw [if_pos ⟨rfl, rfl⟩]
      exact updCell_cost L cuts t w p (p + (w + 1)) (by omega) hjn
        (fun i' j' h1 h2 h3 => h.1 i' j' h1 h2 (Or.inl h3))
        (fun i' j' h1 => h.2 i' j' (by tauto))
    have h' : TblInv L cuts w (p + 1) t' := by
      constructor
      · intro i j hij hjle hcond
        by_cases heq : i = p ∧ j = p + (w + 1)
        · rw [heq.1, heq.2]; exact hnew
        · have : t' i j = t i j := by
            rw [ht']; unfold tupdate; rw [if_neg heq]
          rw [this]
          apply h.1 i j hij hjle
          rcases hcond with hc | hc
          · exact Or.inl hc
          · right
            refine ⟨hc.1, ?_⟩
            rcases Nat.lt_or_ge i p with hip | hip
            · exact hip
            · exfalso; exact heq ⟨by omega, by omega⟩
      · intro i j hncond
        have hne : ¬(i = p ∧ j = p + (w + 1)) := by
          rintro ⟨rfl, rfl⟩
          exact hncond ⟨by omega, hjn, Or.inr ⟨by omega, by omega⟩⟩
        have : t' i j = t i j := by
          rw [ht']; unfold tupdate; rw [if_neg hne]
        rw [this]
        apply h.2
        intro ⟨h1, h2, h3⟩
        apply hncond
        refine ⟨h1, h2, ?_⟩
        rcases h3 with h3 | h3
        · exact Or.inl h3
        · exact Or.inr ⟨h3.1, by omega⟩
    have := passAux L cuts w c (p + 1) t' h' (by omega)
    have harith : p + 1 + c = p + (c + 1) := by omega
    rwa [harith] at this

theorem widthPass_inv (L : Int) (cuts : List Int) (w : Nat)
    (t : Nat → Nat → Option Int × Int) (h : TblInv L cuts w 0 t) :
    TblInv L cuts (w + 1) 0 (widthPass L cuts (w + 1) t) := by
  unfold widthPass
  rw [List.range_eq_range' _]
  have hlen : cuts.length + 1 - (w + 1) = cuts.length - w := by omega
  rw [hlen]
  have := passAux L cuts w (cuts.length - w) 0 t h (by omega)
  rw [Nat.zero_add] at this
  constructor
  · intro i j hij hjle hcond
    apply this.1 i j hij hjle
    have hle : j - i ≤ w + 1 := by
      rcases hcond with hc | hc
      · exact hc
      · omega
    rcases Nat.lt_or_ge (j - i) (w + 1) with hw | hw
    · exact Or.inl (by omega)
    · exact Or.inr ⟨by omega, by omega⟩
  · intro i j hncond
    apply this.2
    intro ⟨h1, h2, h3⟩
    apply hncond
    refine ⟨h1, h2, ?_⟩
    rcases h3 with h3 | h3
    · exact Or.inl (by omega)
    · exact Or.inl (by omega)

theorem mainInv (L : Int) (cuts : List Int) :
    ∀ (c w₀ : Nat) (t : Nat → Nat → Option Int × Int),
      TblInv L cuts w₀ 0 t →
      TblInv L cuts (w₀ + c) 0
        ((List.range' (w₀ + 1) c).foldl (fun t w => widthPass L cuts w t) t)
  | 0, w₀, t, h => by simpa using h
  | c + 1, w₀, t, h => by
    rw [List.range'_succ (w₀ + 1) c 1, List.foldl_cons]
    have h1 := widthPass_inv L cuts w₀ t h
    have h2 := mainInv L cuts c (w₀ + 1) (widthPass L cuts (w₀ + 1) t) h1
    have harith : w₀ + 1 + c = w₀ + (c + 1) := by omega
    rwa [harith] at h2

theorem tblInv_final (L : Int) (cuts : List Int) :
    TblInv L cuts cuts.length 0 (breakStringTable L cuts) := by
  have hbase : TblInv L cuts 0 0 (fun _ _ => (some 0, -1)) := by
    constructor
    · intro i j hij _ hcond
      exfalso; omega
    · intro _ _ _; rfl
  have := mainInv L cuts cuts.length 0 (fun _ _ => (some 0, -1)) hbase
  rw [Nat.zero_add] at this
  exact this

/-- The DP of `break_string_cost` always produces `icost` of the whole span. -/
theorem break_string_cost_eq_icost (L : Int) (cuts : List Int) :
    break_string_cost L cuts =
      some (icost (bnd L cuts) 0 (cuts.length + 1)) := by
  unfold break_string_cost
  rcases Nat.eq_zero_or_pos cuts.length with h0 | h0
  · rw [(tblInv_final L cuts).2 0 cuts.length (by omega)]
    rw [icost_base _ _ _ (by omega)]
  · exact (tblInv_final L cuts).1 0 cuts.length (by omega) (le_refl _) (by omega)

/-! ## Brute force over cut orders

A state of the cutting process is the list `S` of boundary indices already
cut (the string ends `lo`/`hi` act as permanent boundaries).  The piece that
contains the not-yet-cut boundary `t` runs from the nearest already-cut
boundary (or `lo`) below `t` to the nearest one (or `hi`) above `t`; cutting
`t` costs that piece's current length.  `seqCost` charges an entire cut
sequence; the brute-force cost of the claims is the minimum of `seqCost`
over all permutations of the interior boundaries. -/

/-- Nearest boundary below `t`: the largest already-cut index `< t`, or `lo`. -/
def leftBd (lo : Nat) (S : List Nat) (t : Nat) : Nat :=
  nmax lo (S.filter (fun s => decide (s < t)))

/-- Nearest boundary above `t`: the smallest already-cut index `> t`, or `hi`. -/
def rightBd (hi : Nat) (S : List Nat) (t : Nat) : Nat :=
  nmin hi (S.filter (fun s => decide (t < s)))

/-- Current length of the piece that boundary `t` falls in. -/
def pieceLen (b : Nat → Int) (lo hi : Nat) (S : List Nat) (t : Nat) : Int :=
  b (rightBd hi S t) - b (leftBd lo S t)

/-- Total cost of applying the cuts in the order given, starting from the
already-cut set `S`. -/
def seqCost (b : Nat → Int) (lo hi : Nat) : List Nat → List Nat → Int
  | _, [] => 0
  | S, t :: ts => pieceLen b lo hi S t + seqCost b lo hi (t :: S) ts

/-- The quantity of claim C1: the minimum over all orders of applying the
cuts of the summed current piece lengths.  Cut `t ∈ [1, n]` is the cut at
position `cuts[t-1]`; boundary `0` and `n+1` are the string ends. -/
def bruteForceCost (L : Int) (cuts : List Int) : Int :=
  imin (((List.range' 1 cuts.length).permutations).map
    (seqCost (bnd L cuts) 0 (cuts.length + 1) []))

theorem nmin_le_init (a : Nat) : ∀ l : List Nat, nmin a l ≤ a
  | [] => le_refl _
  | _ :: xs => le_trans (min_le_right _ _) (nmin_le_init a xs)

theorem nmin_le_mem {a x : Nat} : ∀ {l : List Nat}, x ∈ l → nmin a l ≤ x
  | _ :: _, h => by
    rcases List.mem_cons.mp h with h | h
    · subst h; exact min_le_left _ _
    · exact le_trans (min_le_right _ _) (nmin_le_mem h)

theorem nmax_init_le (a : Nat) : ∀ l : List Nat, a ≤ nmax a l
  | [] => le_refl _
  | _ :: xs => le_trans (nmax_init_le a xs) (le_max_right _ _)

theorem nmax_mem_le {a x : Nat} : ∀ {l : List Nat}, x ∈ l → x ≤ nmax a l
  | _ :: _, h => by
    rcases List.mem_cons.mp h with h | h
    · subst h; exact le_max_left _ _
    · exact le_trans (nmax_mem_le h) (le_max_right _ _)

theorem nmin_cons (a x : Nat) (l : List Nat) : nmin a (x :: l) = min x (nmin a l) :=
  rfl

theorem nmax_cons (a x : Nat) (l : List Nat) : nmax a (x :: l) = max x (nmax a l) :=
  rfl

/-- Once a boundary `t` is known to cap the right search, everything at or
beyond `t` is irrelevant: cap-min with `t` equals the min over the sub-`t`
part with initial bound `t`. -/
theorem nmin_cap (u t : Nat) :
    ∀ (S : List Nat) (hi : Nat), t ≤ hi →
      min t (nmin hi (S.filter (fun s => decide (u < s)))) =
      nmin t ((S.filter (fun s => decide (s < t))).filter (fun s => decide (u < s)))
  | [], hi, h => by
    simp only [List.filter_nil]
    exact min_eq_left h
  | s :: S, hi, h => by
    by_cases hus : u < s
    · by_cases hst : s < t
      · rw [List.filter_cons_of_pos (by simpa using hus),
          List.filter_cons_of_pos (by simpa using hst),
          List.filter_cons_of_pos (by simpa using hus),
          nmin_cons, nmin_cons, min_left_comm, nmin_cap u t S hi h]
      · have hts : t ≤ s := by omega
        rw [List.filter_cons_of_pos (by simpa using hus),
          List.filter_cons_of_neg (by simpa using hst),
          nmin_cons, ← min_assoc, min_eq_left hts,
          nmin_cap u t S hi h]
    · by_cases hst : s < t
      · rw [List.filter_cons_of_neg (by simpa using hus),
          List.filter_cons_of_pos (by simpa using hst),
          List.filter_cons_of_neg (by simpa using hus),
          nmin_cap u t S hi h]
      · rw [List.filter_cons_of_neg (by simpa using hus),
          List.filter_cons_of_neg (by simpa using hst),
          nmin_cap u t S hi h]

/-- Mirror of `nmin_cap` for the left boundary search. -/
theorem nmax_cap (u t : Nat) :
    ∀ (S : List Nat) (lo : Nat), lo ≤ t →
      max t (nmax lo (S.filter (fun s => decide (s < u)))) =
      nmax t ((S.filter (fun s => decide (t < s))).filter (fun s => decide (s < u)))
  | [], lo, h => by
    simp only [List.filter_nil]
    exact max_eq_left h
  | s :: S, lo, h => by
    by_cases hsu : s < u
    · by_cases hts : t < s
      · rw [List.filter_cons_of_pos (by simpa using hsu),
          List.filter_cons_of_pos (by simpa using hts),
          List.filter_cons_of_pos (by simpa using hsu),
          nmax_cons, nmax_cons, max_left_comm, nmax_cap u t S lo h]
      · have hst : s ≤ t := by omega
        rw [List.filter_cons_of_pos (by simpa using hsu),
          List.filter_cons_of_neg (by simpa using hts),
          nmax_cons, ← max_assoc, max_eq_left hst,
          nmax_cap u t S lo h]
    · by_cases hts : t < s
      · rw [List.filter_cons_of_neg (by simpa using hsu),
          List.filter_cons_of_pos (by simpa using hts),
          List.filter_cons_of_neg (by simpa using hsu),
          nmax_cap u t S lo h]
      · rw [List.filter_cons_of_neg (by simpa using hsu),
          List.filter_cons_of_neg (by simpa using hts),
          nmax_cap u t S lo h]

theorem rightBd_restrict {S : List Nat} {u t hi : Nat} (ht : t ∈ S)
    (hut : u < t) (hhi : t ≤ hi) :
    rightBd hi S u = rightBd t (S.filter (fun s => decide (s < t))) u := by
  have htf : t ∈ S.filter (fun s => decide (u < s)) :=
    List.mem_filter.mpr ⟨ht, decide_eq_true hut⟩
  have habs : nmin hi (S.filter (fun s => decide (u < s))) ≤ t := nmin_le_mem htf
  unfold rightBd
  rw [← min_eq_right habs, nmin_cap u t S hi hhi]

theorem leftBd_restrict_lt {S : List Nat} (lo : Nat) {u t : Nat} (hut : u < t) :
    leftBd lo S u = leftBd lo (S.filter (fun s => decide (s < t))) u := by
  unfold leftBd
  congr 1
  induction S with
  | nil => rfl
  | cons s S ih =>
    by_cases hsu : s < u
    · have hst : s < t := by omega
      rw [List.filter_cons_of_pos (by simpa using hsu),
        List.filter_cons_of_pos (by simpa using hst),
        List.filter_cons_of_pos (by simpa using hsu), ih]
    · by_cases hst : s < t
      · rw [List.filter_cons_of_neg (by simpa using hsu),
          List.filter_cons_of_pos (by simpa using hst),
          List.filter_cons_of_neg (by simpa using hsu), ih]
      · rw [List.filter_cons_of_neg (by simpa using hsu),
          List.filter_cons_of_neg (by simpa using hst), ih]

theorem leftBd_restrict {S : List Nat} {u t lo : Nat} (ht : t ∈ S)
    (htu : t < u) (hlo : lo ≤ t) :
    leftBd lo S u = leftBd t (S.filter (fun s => decide (t < s))) u := by
  have htf : t ∈ S.filter (fun s => decide (s < u)) :=
    List.mem_filter.mpr ⟨ht, decide_eq_true htu⟩
  have habs : t ≤ nmax lo (S.filter (fun s => decide (s < u))) := nmax_mem_le htf
  unfold leftBd
  rw [← max_eq_right habs, nmax_cap u t S lo hlo]

theorem rightBd_restrict_gt {S : List Nat} (hi : Nat) {u t : Nat} (htu : t < u) :
    rightBd hi S u = rightBd hi (S.filter (fun s => decide (t < s))) u := by
  unfold rightBd
  congr 1
  induction S with
  | nil => rfl
  | cons s S ih =>
    by_cases hus : u < s
    · have hts : t < s := by omega
      rw [List.filter_cons_of_pos (by simpa using hus),
        List.filter_cons_of_pos (by simpa using hts),
        List.filter_cons_of_pos (by simpa using hus), ih]
    · by_cases hts : t < s
      · rw [List.filter_cons_of_neg (by simpa using hus),
          List.filter_cons_of_pos (by simpa using hts),
          List.filter_cons_of_neg (by simpa using hus), ih]
      · rw [List.filter_cons_of_neg (by simpa using hus),
          List.filter_cons_of_neg (by simpa using hts), ih]

theorem pieceLen_left (b : Nat → Int) {S : List Nat} {lo hi u t : Nat}
    (ht : t ∈ S) (hut : u < t) (hhi : t ≤ hi) :
    pieceLen b lo hi S u = pieceLen b lo t (S.filter (fun s => decide (s < t))) u := by
  unfold pieceLen
  rw [rightBd_restrict ht hut hhi, leftBd_restrict_lt lo hut]

theorem pieceLen_right (b : Nat → Int) {S : List Nat} {lo hi u t : Nat}
    (ht : t ∈ S) (htu : t < u) (hlo : lo ≤ t) :
    pieceLen b lo hi S u = pieceLen b t hi (S.filter (fun s => decide (t < s))) u := by
  unfold pieceLen
  rw [leftBd_restrict ht htu hlo, rightBd_restrict_gt hi htu]

/-- Separation: once the boundary `t` has been cut, the cost of any further
cut sequence avoiding `t` splits into the cost of its sub-`t` part on the
left piece plus the cost of its above-`t` part on the right piece. -/
theorem seqCost_split (b : Nat → Int) (lo t hi : Nat) (hlo : lo ≤ t)
    (hhi : t ≤ hi) :
    ∀ (rest S : List Nat), t ∈ S → (∀ u ∈ rest, u ≠ t) →
      seqCost b lo hi S rest =
        seqCost b lo t (S.filter (fun s => decide (s < t)))
          (rest.filter (fun u => decide (u < t))) +
        seqCost b t hi (S.filter (fun s => decide (t < s)))
          (rest.filter (fun u => decide (t < u)))
  | [], S, _, _ => by simp [seqCost]
  | u :: rest, S, htS, hne => by
    have hut : u ≠ t := hne u (by simp)
    have hrest : ∀ u' ∈ rest, u' ≠ t :=
      fun u' hu' => hne u' (List.mem_cons_of_mem _ hu')
    have hIH := seqCost_split b lo t hi hlo hhi rest (u :: S)
      (List.mem_cons_of_mem _ htS) hrest
    by_cases h : u < t
    · have hnt : ¬ t < u := by omega
      rw [List.filter_cons_of_pos (by simpa using h),
        List.filter_cons_of_neg (by simpa using hnt)]
      simp only [seqCost]
      rw [pieceLen_left b htS h hhi, hIH,
        List.filter_cons_of_pos (by simpa using h),
        List.filter_cons_of_neg (by simpa using hnt), add_assoc]
    · have h' : t < u := by omega
      rw [List.filter_cons_of_neg (by simpa using h),
        List.filter_cons_of_pos (by simpa using h')]
      simp only [seqCost]
      rw [pieceLen_right b htS h' hlo, hIH,
        List.filter_cons_of_neg (by simpa using h),
        List.filter_cons_of_pos (by simpa using h'), add_left_comm]

theorem pieceLen_nil (b : Nat → Int) (lo hi t : Nat) :
    pieceLen b lo hi [] t = b hi - b lo := rfl

theorem range'_length_ne_nil (s n : Nat) (h : 0 < n) : List.range' s n ≠ [] := by
  have h' : (List.range' s n).length = n := by simp
  intro hc
  rw [hc] at h'
  simp at h'
  omega

/-- Splitting an index interval at an interior point `t`. -/
theorem range'_split {lo hi t : Nat} (h1 : lo + 1 ≤ t) (h2 : t < hi) :
    List.range' (lo + 1) (hi - lo - 1) =
      List.range' (lo + 1) (t - lo - 1) ++ t :: List.range' (t + 1) (hi - t - 1) := by
  have hn : hi - lo - 1 = (hi - t) + (t - lo - 1) := by omega
  rw [hn, ← List.range'_append (lo + 1) (t - lo - 1) (hi - t) 1]
  congr 1
  have harg : lo + 1 + 1 * (t - lo - 1) = t := by omega
  rw [harg]
  have hsucc : hi - t = (hi - t - 1) + 1 := by omega
  rw [hsucc]
  exact List.range'_succ t (hi - t - 1) 1

theorem filter_lt_left {A : List Nat} {t lo : Nat}
    (hA : ∀ a ∈ A, a ∈ List.range' (lo + 1) (t - lo - 1)) :
    A.filter (fun u => decide (u < t)) = A :=
  List.filter_eq_self.mpr (fun a ha => by
    have := List.mem_range'_1.mp (hA a ha)
    simp
    omega)

theorem filter_lt_right {B : List Nat} {t hi : Nat}
    (hB : ∀ a ∈ B, a ∈ List.range' (t + 1) (hi - t - 1)) :
    B.filter (fun u => decide (u < t)) = [] :=
  List.filter_eq_nil_iff.mpr (fun a ha => by
    have := List.mem_range'_1.mp (hB a ha)
    simp
    omega)

theorem filter_gt_left {A : List Nat} {t lo : Nat}
    (hA : ∀ a ∈ A, a ∈ List.range' (lo + 1) (t - lo - 1)) :
    A.filter (fun u => decide (t < u)) = [] :=
  List.filter_eq_nil_iff.mpr (fun a ha => by
    have := List.mem_range'_1.mp (hA a ha)
    simp
    omega)

theorem filter_gt_right {B : List Nat} {t hi : Nat}
    (hB : ∀ a ∈ B, a ∈ List.range' (t + 1) (hi - t - 1)) :
    B.filter (fun u => decide (t < u)) = B :=
  List.filter_eq_self.mpr (fun a ha => by
    have := List.mem_range'_1.mp (hB a ha)
    simp
    omega)

/-- Lower bound: the recurrence value is at most the cost of any cut order. -/
theorem icost_le_seqCost (b : Nat → Int) :
    ∀ (f lo hi : Nat), lo < hi → hi - lo ≤ f →
      ∀ σ : List Nat, σ.Perm (List.range' (lo + 1) (hi - lo - 1)) →
        icost b lo hi ≤ seqCost b lo hi [] σ := by
  intro f
  induction f with
  | zero => intro lo hi h1 h2 _ _; omega
  | succ f ih =>
    intro lo hi h1 h2 σ hσ
    by_cases hw : hi = lo + 1
    · subst hw
      have hσnil : σ = [] := List.perm_nil.mp (by simpa using hσ)
      subst hσnil
      rw [icost_base b lo (lo + 1) (by omega)]
      exact le_refl _
    · have hlt : lo + 1 < hi := by omega
      cases σ with
      | nil =>
        exfalso
        have := hσ.length_eq
        simp at this
        omega
      | cons t rest =>
        have htI : t ∈ List.range' (lo + 1) (hi - lo - 1) :=
          hσ.mem_iff.mp (by simp)
        have htb := List.mem_range'_1.mp htI
        have ht1 : lo + 1 ≤ t := htb.1
        have ht2 : t < hi := by omega
        have hInd : (List.range' (lo + 1) (hi - lo - 1)).Nodup :=
          List.nodup_range' (lo + 1) (hi - lo - 1)
        have hnd : (t :: rest).Nodup := hσ.nodup_iff.mpr hInd
        have htrest : t ∉ rest := (List.nodup_cons.mp hnd).1
        have hsplit := range'_split ht1 ht2
        have hArest : rest.Perm
            (List.range' (lo + 1) (t - lo - 1) ++ List.range' (t + 1) (hi - t - 1)) := by
          have h3 : (t :: rest).Perm
              (t :: (List.range' (lo + 1) (t - lo - 1) ++
                List.range' (t + 1) (hi - t - 1))) :=
            hσ.trans (by rw [hsplit]; exact List.perm_middle)
          exact h3.cons_inv
        have hL : (rest.filter (fun u => decide (u < t))).Perm
            (List.range' (lo + 1) (t - lo - 1)) := by
          have h4 := hArest.filter (fun u => decide (u < t))
          rw [List.filter_append,
            filter_lt_left (fun a ha => ha),
            filter_lt_right (fun a ha => ha), List.append_nil] at h4
          exact h4
        have hR : (rest.filter (fun u => decide (t < u))).Perm
            (List.range' (t + 1) (hi - t - 1)) := by
          have h4 := hArest.filter (fun u => decide (t < u))
          rw [List.filter_append,
            filter_gt_left (fun a ha => ha),
            filter_gt_right (fun a ha => ha), List.nil_append] at h4
          exact h4
        have hsep := seqCost_split b lo t hi (by omega) (by omega) rest [t]
          (by simp) (fun u hu => by
            intro hut
            exact htrest (hut ▸ hu))
        have hfl : ([t] : List Nat).filter (fun s => decide (s < t)) = [] := by
          simp
        have hfr : ([t] : List Nat).filter (fun s => decide (t < s)) = [] := by
          simp
        rw [hfl, hfr] at hsep
        have hIHL := ih lo t (by omega) (by omega) _ hL
        have hIHR := ih t hi (by omega) (by omega) _ hR
        have himin : imin ((List.range' (lo + 1) (hi - lo - 1)).map
            (fun k => icost b lo k + icost b k hi)) ≤ icost b lo t + icost b t hi :=
          imin_le (List.mem_map_of_mem _ htI)
        rw [icost_step b lo hi hlt]
        show _ ≤ seqCost b lo hi [] (t :: rest)
        simp only [seqCost]
        rw [pieceLen_nil, hsep]
        have hto : [t] = (t :: ([] : List Nat)) := rfl
        linarith [himin, hIHL, hIHR]

/-- Upper bound: some cut order achieves the recurrence value. -/
theorem seqCost_achieves_icost (b : Nat → Int) :
    ∀ (f lo hi : Nat), lo < hi → hi - lo ≤ f →
      ∃ σ : List Nat, σ.Perm (List.range' (lo + 1) (hi - lo - 1)) ∧
        seqCost b lo hi [] σ = icost b lo hi := by
  intro f
  induction f with
  | zero => intro lo hi h1 h2; omega
  | succ f ih =>
    intro lo hi h1 h2
    by_cases hw : hi = lo + 1
    · subst hw
      refine ⟨[], by simp, ?_⟩
      rw [icost_base b lo (lo + 1) (by omega)]
      rfl
    · have hlt : lo + 1 < hi := by omega
      have hIne : List.range' (lo + 1) (hi - lo - 1) ≠ [] :=
        range'_length_ne_nil _ _ (by omega)
      have hmapne : (List.range' (lo + 1) (hi - lo - 1)).map
          (fun k => icost b lo k + icost b k hi) ≠ [] := by
        intro hc
        exact hIne (List.map_eq_nil_iff.mp hc)
      obtain ⟨k₀, hk₀I, hk₀⟩ := List.mem_map.mp (imin_mem hmapne)
      have hkb := List.mem_range'_1.mp hk₀I
      have hk1 : lo + 1 ≤ k₀ := hkb.1
      have hk2 : k₀ < hi := by omega
      obtain ⟨σL, hpL, hcL⟩ := ih lo k₀ (by omega) (by omega)
      obtain ⟨σR, hpR, hcR⟩ := ih k₀ hi (by omega) (by omega)
      refine ⟨k₀ :: (σL ++ σR), ?_, ?_⟩
      · have hsplit := range'_split hk1 hk2
        rw [hsplit]
        exact ((hpL.append hpR).cons k₀).trans List.perm_middle.symm
      · have hmemL : ∀ a ∈ σL, a ∈ List.range' (lo + 1) (k₀ - lo - 1) :=
          fun a ha => hpL.mem_iff.mp ha
        have hmemR : ∀ a ∈ σR, a ∈ List.range' (k₀ + 1) (hi - k₀ - 1) :=
          fun a ha => hpR.mem_iff.mp ha
        have hne : ∀ u ∈ σL ++ σR, u ≠ k₀ := by
          intro u hu
          rcases List.mem_append.mp hu with h | h
          · have := List.mem_range'_1.mp (hmemL u h); omega
          · have := List.mem_range'_1.mp (hmemR u h); omega
        have hsep := seqCost_split b lo k₀ hi (by omega) (by omega)
          (σL ++ σR) [k₀] (by simp) hne
        have hfl : ([k₀] : List Nat).filter (fun s => decide (s < k₀)) = [] := by
          simp
        have hfr : ([k₀] : List Nat).filter (fun s => decide (k₀ < s)) = [] := by
          simp
        rw [hfl, hfr] at hsep
        have hfL : (σL ++ σR).filter (fun u => decide (u < k₀)) = σL := by
          rw [List.filter_append, filter_lt_left hmemL,
            filter_lt_right hmemR, List.append_nil]
        have hfR : (σL ++ σR).filter (fun u => decide (k₀ < u)) = σR := by
          rw [List.filter_append, filter_gt_left hmemL,
            filter_gt_right hmemR, List.nil_append]
        rw [hfL, hfR] at hsep
        show pieceLen b lo hi [] k₀ + seqCost b lo hi [k₀] (σL ++ σR) = _
        rw [pieceLen_nil, hsep, hcL, hcR, hk₀, icost_step b lo hi hlt]

/-- The recurrence equals the brute-force minimum over all cut orders. -/
theorem icost_eq_perm_min (b : Nat → Int) (lo hi : Nat) (h : lo < hi) :
    icost b lo hi =
      imin (((List.range' (lo + 1) (hi - lo - 1)).permutations).map
        (seqCost b lo hi [])) := by
  apply le_antisymm
  · apply le_imin
    · intro hc
      have hp : (List.range' (lo + 1) (hi - lo - 1)).permutations = [] :=
        List.map_eq_nil_iff.mp hc
      have h0 : List.range' (lo + 1) (hi - lo - 1) ∈
          (List.range' (lo + 1) (hi - lo - 1)).permutations :=
        List.mem_permutations.mpr (List.Perm.refl _)
      rw [hp] at h0
      cases h0
    · intro x hx
      obtain ⟨σ, hσ, hσx⟩ := List.mem_map.mp hx
      rw [← hσx]
      exact icost_le_seqCost b (hi - lo) lo hi h (le_refl _) σ
        (List.mem_permutations.mp hσ)
  · obtain ⟨σ, hσ, hc⟩ := seqCost_achieves_icost b (hi - lo) lo hi h (le_refl _)
    rw [← hc]
    exact imin_le (List.mem_map_of_mem _ (List.mem_permutations.mpr hσ))

/-! ## Claim theorems for `break_string_cost` -/

/-- C1: for every positive string length and every strictly increasing list
of at most 6 in-range cuts, `break_string_cost` returns exactly the minimum,
over all permutations of the order in which the cuts are applied, of the sum
over the cuts of the length of the piece being cut at the moment that cut is
made (`bruteForceCost`). -/
theorem break_string_cost_eq_perm_min (L : Int) (cuts : List Int)
    (_hL : 0 < L) (_hsorted : List.Chain' (· < ·) cuts)
    (_hrange : ∀ c ∈ cuts, 0 ≤ c ∧ c < L) (_hlen : cuts.length ≤ 6) :
    break_string_cost L cuts = some (bruteForceCost L cuts) := by
  rw [break_string_cost_eq_icost]
  congr 1
  unfold bruteForceCost
  rw [icost_eq_perm_min (bnd L cuts) 0 (cuts.length + 1) (by omega)]
  norm_num

/-- Witness for C1 at the source's own example `(20, [2, 8, 10])`. -/
theorem break_string_cost_eq_perm_min_witness :
    (0 : Int) < 20 ∧ List.Chain' (· < ·) [(2 : Int), 8, 10] ∧
      (∀ c ∈ [(2 : Int), 8, 10], 0 ≤ c ∧ c < 20) ∧
      ([(2 : Int), 8, 10].length ≤ 6) ∧
      break_string_cost 20 [2, 8, 10] = some (bruteForceCost 20 [2, 8, 10]) :=
  ⟨by decide, by norm_num [List.chain'_cons], by decide, by decide,
    break_string_cost_eq_perm_min 20 [2, 8, 10] (by decide)
      (by norm_num [List.chain'_cons]) (by decide) (by decide)⟩

/-- C3 counterexample: on the spec's two invalid inputs — `[5, 3]` (not
increasing) and `[-1, 5]` (out of range) — `break_string_cost` does return a
number instead of failing; no validation exists in the code. -/
theorem break_string_cost_invalid_returns_number :
    (break_string_cost 20 [5, 3]).isSome = true ∧
      (break_string_cost 20 [-1, 5]).isSome = true := by
  exact ⟨by decide, by decide⟩

/-- C3 amended: `break_string_cost` performs no input validation; on the
spec's invalid examples it silently produces `23` and `25`. -/
theorem break_string_cost_no_validation :
    break_string_cost 20 [5, 3] = some 23 ∧
      break_string_cost 20 [-1, 5] = some 25 := by
  exact ⟨by decide, by decide⟩

/-- C4: `break_string_cost(20, [2, 8, 10])` returns `38`. -/
theorem break_string_cost_example :
    break_string_cost 20 [2, 8, 10] = some 38 := by decide

/-- C5 counterexample: the width-one cell `(0, 1)` of the table for
`(20, [2, 8, 10])` holds cost `8` (the covered span, `cuts[1] - 0`) and
records split index `0` — not cost `0` with no split. -/
theorem breakStringTable_width_one_cell :
    ¬ ((breakStringTable 20 [2, 8, 10] 0 1).1 = some 0 ∧
      (breakStringTable 20 [2, 8, 10] 0 1).2 = -1) := by decide

/-- C5 amended: every cell `(i, j)` with `j - i ≤ 0` (that is, `j ≤ i`;
such cells are never written by the loops, which only touch
`j = i + width` for `width ≥ 1`) holds cost `0` and records no split
index (`-1`). -/
theorem breakStringTable_diag (L : Int) (cuts : List Int) (i j : Nat)
    (h : j ≤ i) : breakStringTable L cuts i j = (some 0, -1) :=
  (tblInv_final L cuts).2 i j (by omega)

/-- Witness for the amended C5. -/
theorem breakStringTable_diag_witness :
    1 ≤ 1 ∧ breakStringTable 20 [2, 8, 10] 1 1 = (some 0, -1) :=
  ⟨le_refl 1, breakStringTable_diag 20 [2, 8, 10] 1 1 (le_refl 1)⟩

/-- C9: for every integer string length and every list of integer cuts —
valid or not — `break_string_cost` runs to completion and returns a finite
number: the `inf` sentinel is always overwritten and no list access is out
of bounds (either event would surface as `none` in this embedding). -/
theorem break_string_cost_total (L : Int) (cuts : List Int) :
    ∃ z : Int, break_string_cost L cuts = some z :=
  ⟨icost (bnd L cuts) 0 (cuts.length + 1), break_string_cost_eq_icost L cuts⟩

/-- C10: with exactly one cut, the result is the string length, whatever the
cut value is — the cut position is never read. -/
theorem break_string_cost_single_cut (L : Int) (c : Int) :
    break_string_cost L [c] = some L := by
  rw [break_string_cost_eq_icost]
  congr 1
  have hlen2 : [c].length + 1 = 2 := rfl
  rw [hlen2, icost_step (bnd L [c]) 0 2 (by omega)]
  have h1 : List.range' 1 (2 - 0 - 1) = [1] := rfl
  rw [h1, List.map_cons, List.map_nil,
    icost_base (bnd L [c]) 0 1 (by omega),
    icost_base (bnd L [c]) 1 2 (by omega)]
  show bnd L [c] 2 - bnd L [c] 0 + imin [0 + 0] = L
  simp [bnd, imin]

/-! ## `find_least_seam` (source lines 11–25)

The DP rows are lists of `Option Int` (`none` = `float('inf')`).  The Python
row index `i` and column index `j` are 1-based; `dp[i-2][k+j-1]` is read with
Python indexing semantics, where a negative index counts from the end of the
list — `pyGetO` reproduces exactly that. -/

/-- Python list read `l[idx]`, including the negative-index wrap-around.
An index that is out of range even after wrapping yields `none`. -/
def pyGetO (l : List (Option Int)) (idx : Int) : Option Int :=
  if idx < 0 then l.getD (l.length - (-idx).toNat) none
  else l.getD idx.toNat none

/-- One iteration of `for k in range(-1, 2)` (source lines 20–22):
`if n > k + j >= 0: valid = min(valid, dp[i-2][k+j-1])`. -/
def seamStep (prev : List (Option Int)) (n j : Nat) (acc : Option Int)
    (k : Int) : Option Int :=
  if 0 ≤ k + (j : Int) ∧ k + (j : Int) < (n : Int) then
    omin acc (pyGetO prev (k + (j : Int) - 1))
  else acc

/-- The predecessor minimum `valid` for 1-based column `j` of a row `i ≥ 2`,
computed from the previous dp row (source lines 19–22). -/
def seamCell (prev : List (Option Int)) (n j : Nat) : Option Int :=
  [(-1 : Int), 0, 1].foldl (seamStep prev n j) none

/-- `dp[i-1][j-1] = d[i-1][j-1] + valid` across a row (source line 23). -/
def seamRow (drow : List Int) (prev : List (Option Int)) (n : Nat) :
    List (Option Int) :=
  (List.range' 1 n).map
    (fun j => oadd (some (drow.getD (j - 1) 0)) (seamCell prev n j))

/-- The dp rows; `seamDP d n i` is the row written at loop iteration `i`
(1-based).  Row 1 copies grid row 0 (source line 17). -/
def seamDP (d : List (List Int)) (n : Nat) : Nat → List (Option Int)
  | 0 => []
  | 1 => (List.range' 1 n).map (fun j => some ((d.getD 0 []).getD (j - 1) 0))
  | i + 2 => seamRow (d.getD (i + 1) []) (seamDP d n (i + 1)) n

/-- `find_least_seam(d, m, n)` returns `min(dp[m - 1])` (source line 25). -/
def find_least_seam (d : List (List Int)) (m n : Nat) : Option Int :=
  (seamDP d n m).foldl omin none

/-- The predecessor window the code actually reads for 0-based column `j'`
(claim C8): `{j'-1, j', j'+1} ∩ [-1, n-2]`, with `-1` denoting the LAST
column `n-1` through Python's negative indexing. -/
def windowIdx (n j' : Nat) : List Nat :=
  (([(j' : Int) - 1, (j' : Int), (j' : Int) + 1]).filter
    (fun t => decide (-1 ≤ t) && decide (t ≤ (n : Int) - 2))).map
    (fun t => if t < 0 then n - 1 else t.toNat)

/-- Modelled from the spec: the window `{j'-1, j', j'+1} ∩ [0, n)` that the
spec's DP invariant prescribes for `dp[i][j']`, `i > 0`. -/
def specWindow (n j' : Nat) : List Nat :=
  (([(j' : Int) - 1, (j' : Int), (j' : Int) + 1]).filter
    (fun t => decide (0 ≤ t) && decide (t < (n : Int)))).map Int.toNat

/-- Modelled from the spec: one DP row of the seam recurrence of the spec
(`dp[i][j] = grid[i][j] + min(dp[i-1][k])`, `k` in the in-bounds window). -/
def specSeamRow (drow : List Int) (prev : List Int) (n : Nat) : List Int :=
  (List.range n).map
    (fun j' => drow.getD j' 0 + imin ((specWindow n j').map (fun t => prev.getD t 0)))

/-- Modelled from the spec: the full spec-side DP table, row by row. -/
def specSeamDP (d : List (List Int)) (n : Nat) : Nat → List Int
  | 0 => []
  | 1 => (List.range n).map (fun j' => (d.getD 0 []).getD j' 0)
  | i + 2 => specSeamRow (d.getD (i + 1) []) (specSeamDP d n (i + 1)) n

/-- Modelled from the spec: the minimum over the last spec-DP row. -/
def specSeamResult (d : List (List Int)) (m n : Nat) : Int :=
  imin (specSeamDP d n m)

/-- Pointwise grid update: replace cell `(r, c)` by `v` (no-op out of range,
like `List.set`). -/
def updateGrid (d : List (List Int)) (r c : Nat) (v : Int) : List (List Int) :=
  d.set r ((d.getD r []).set c v)

/-- Order on dp values with `none` as `+∞` (top). -/
def oleB : Option Int → Option Int → Bool
  | _, none => true
  | none, some _ => false
  | some a, some b => decide (a ≤ b)

theorem omin_none_left (b : Option Int) : omin none b = b := by cases b <;> rfl

theorem seamStep_first (prev : List (Option Int)) (n j' : Nat)
    (hlen : prev.length = n) (hj : j' < n) :
    seamStep prev n (j' + 1) none (-1) =
      prev.getD (if j' = 0 then n - 1 else j' - 1) none := by
  unfold seamStep
  rw [if_pos (⟨by omega, by omega⟩ :
    (0 : Int) ≤ -1 + ((j' + 1 : Nat) : Int) ∧ -1 + ((j' + 1 : Nat) : Int) < (n : Int))]
  rw [omin_none_left]
  unfold pyGetO
  by_cases h0 : j' = 0
  · subst h0
    rw [if_pos (by omega), if_pos rfl]
    have harg : prev.length - (-((-1 : Int) + ((0 + 1 : Nat) : Int) - 1)).toNat
        = n - 1 := by
      rw [hlen]
      push_cast
      omega
    rw [harg]
  · rw [if_neg (by omega), if_neg h0]
    have harg : ((-1 : Int) + ((j' + 1 : Nat) : Int) - 1).toNat = j' - 1 := by
      push_cast
      omega
    rw [harg]

theorem seamStep_mid (prev : List (Option Int)) (n j' : Nat)
    (h2 : j' + 1 < n) (acc : Option Int) :
    seamStep prev n (j' + 1) acc 0 = omin acc (prev.getD j' none) := by
  unfold seamStep
  rw [if_pos (⟨by omega, by omega⟩ :
    (0 : Int) ≤ 0 + ((j' + 1 : Nat) : Int) ∧ 0 + ((j' + 1 : Nat) : Int) < (n : Int))]
  unfold pyGetO
  rw [if_neg (by omega)]
  have harg : ((0 : Int) + ((j' + 1 : Nat) : Int) - 1).toNat = j' := by
    push_cast
    omega
  rw [harg]

theorem seamStep_mid_out (prev : List (Option Int)) (n j' : Nat)
    (h2 : ¬ j' + 1 < n) (acc : Option Int) :
    seamStep prev n (j' + 1) acc 0 = acc := by
  unfold seamStep
  rw [if_neg (by omega)]

theorem seamStep_last (prev : List (Option Int)) (n j' : Nat)
    (h3 : j' + 2 < n) (acc : Option Int) :
    seamStep prev n (j' + 1) acc 1 = omin acc (prev.getD (j' + 1) none) := by
  unfold seamStep
  rw [if_pos (⟨by omega, by omega⟩ :
    (0 : Int) ≤ 1 + ((j' + 1 : Nat) : Int) ∧ 1 + ((j' + 1 : Nat) : Int) < (n : Int))]
  unfold pyGetO
  rw [if_neg (by omega)]
  have harg : ((1 : Int) + ((j' + 1 : Nat) : Int) - 1).toNat = j' + 1 := by
    push_cast
    omega
  rw [harg]

theorem seamStep_last_out (prev : List (Option Int)) (n j' : Nat)
    (h3 : ¬ j' + 2 < n) (acc : Option Int) :
    seamStep prev n (j' + 1) acc 1 = acc := by
  unfold seamStep
  rw [if_neg (by omega)]

theorem windowIdx_first_elem (n j' : Nat) :
    (if ((j' : Int) - 1) < 0 then n - 1 else ((j' : Int) - 1).toNat) =
      (if j' = 0 then n - 1 else j' - 1) := by
  by_cases h0 : j' = 0
  · subst h0
    rw [if_pos (by omega), if_pos rfl]
  · rw [if_neg (by omega), if_neg h0]
    omega

theorem windowIdx_full (n j' : Nat) (_hj : j' < n) (h3 : j' + 2 < n) :
    windowIdx n j' = [(if j' = 0 then n - 1 else j' - 1), j', j' + 1] := by
  unfold windowIdx
  rw [List.filter_cons_of_pos
      (by simp only [Bool.and_eq_true, decide_eq_true_eq]; omega),
    List.filter_cons_of_pos
      (by simp only [Bool.and_eq_true, decide_eq_true_eq]; omega),
    List.filter_cons_of_pos
      (by simp only [Bool.and_eq_true, decide_eq_true_eq]; omega),
    List.filter_nil, List.map_cons, List.map_cons, List.map_cons, List.map_nil,
    windowIdx_first_elem]
  have e2 : (if ((j' : Int)) < 0 then n - 1 else ((j' : Int)).toNat) = j' := by
    rw [if_neg (by omega)]
    omega
  have e3 : (if ((j' : Int) + 1) < 0 then n - 1 else ((j' : Int) + 1).toNat)
      = j' + 1 := by
    rw [if_neg (by omega)]
    omega
  rw [e2, e3]

theorem windowIdx_mid (n j' : Nat) (_hj : j' < n) (h2 : j' + 1 < n)
    (h3 : ¬ j' + 2 < n) :
    windowIdx n j' = [(if j' = 0 then n - 1 else j' - 1), j'] := by
  unfold windowIdx
  rw [List.filter_cons_of_pos
      (by simp only [Bool.and_eq_true, decide_eq_true_eq]; omega),
    List.filter_cons_of_pos
      (by simp only [Bool.and_eq_true, decide_eq_true_eq]; omega),
    List.filter_cons_of_neg
      (by simp only [Bool.and_eq_true, decide_eq_true_eq]; omega),
    List.filter_nil, List.map_cons, List.map_cons, List.map_nil,
    windowIdx_first_elem]
  have e2 : (if ((j' : Int)) < 0 then n - 1 else ((j' : Int)).toNat) = j' := by
    rw [if_neg (by omega)]
    omega
  rw [e2]

theorem windowIdx_last (n j' : Nat) (_hj : j' < n) (h2 : ¬ j' + 1 < n) :
    windowIdx n j' = [(if j' = 0 then n - 1 else j' - 1)] := by
  unfold windowIdx
  rw [List.filter_cons_of_pos
      (by simp only [Bool.and_eq_true, decide_eq_true_eq]; omega),
    List.filter_cons_of_neg
      (by simp only [Bool.and_eq_true, decide_eq_true_eq]; omega),
    List.filter_cons_of_neg
      (by simp only [Bool.and_eq_true, decide_eq_true_eq]; omega),
    List.filter_nil, List.map_cons, List.map_nil, windowIdx_first_elem]

/-! ## Claim theorems for `find_least_seam` -/

/-- C8: for dp rows of width `n ≥ 2`, the predecessor window the code reads
for 0-based column `j'` is exactly `{j'-1, j', j'+1} ∩ [-1, n-2]` with `-1`
standing for the last column `n-1` (Python negative indexing): column `0`
wraps around to `{n-1, 0, 1}`, and column `n-1` sees only column `n-2`,
never itself. -/
theorem seamCell_window (prev : List (Option Int)) (n j' : Nat)
    (hlen : prev.length = n) (_hn : 2 ≤ n) (hj : j' < n) :
    seamCell prev n (j' + 1) =
      (windowIdx n j').foldl (fun a t => omin a (prev.getD t none)) none := by
  have hcell : seamCell prev n (j' + 1) =
      seamStep prev n (j' + 1)
        (seamStep prev n (j' + 1) (seamStep prev n (j' + 1) none (-1)) 0) 1 :=
    rfl
  by_cases h3 : j' + 2 < n
  · have h2 : j' + 1 < n := by omega
    rw [hcell, seamStep_first prev n j' hlen hj, seamStep_mid prev n j' h2,
      seamStep_last prev n j' h3, windowIdx_full n j' hj h3]
    simp only [List.foldl_cons, List.foldl_nil]
    rw [omin_none_left]
  · by_cases h2 : j' + 1 < n
    · rw [hcell, seamStep_first prev n j' hlen hj, seamStep_mid prev n j' h2,
        seamStep_last_out prev n j' h3, windowIdx_mid n j' hj h2 h3]
      simp only [List.foldl_cons, List.foldl_nil]
      rw [omin_none_left]
    · rw [hcell, seamStep_first prev n j' hlen hj,
        seamStep_mid_out prev n j' h2, seamStep_last_out prev n j' h3,
        windowIdx_last n j' hj h2]
      simp only [List.foldl_cons, List.foldl_nil]
      rw [omin_none_left]

/-- Witness for C8 on a length-3 row: column 0 of a 3-wide row reads
`{2, 0, 1}` — the wrap-around to the last column included. -/
theorem seamCell_window_witness :
    ([some (5 : Int), some 7, some 9].length = 3 ∧ 2 ≤ 3 ∧ 0 < 3) ∧
      seamCell [some (5 : Int), some 7, some 9] 3 (0 + 1) =
        (windowIdx 3 0).foldl
          (fun a t => omin a ([some (5 : Int), some 7, some 9].getD t none))
          none :=
  ⟨⟨rfl, by decide, by decide⟩,
    seamCell_window [some (5 : Int), some 7, some 9] 3 0 rfl (by decide)
      (by decide)⟩

/-- C6: on the grid `[[1,2,3],[4,5,6],[7,8,9]]` the code returns `12`, with
intermediate dp rows `[1,2,3]`, `[5,6,8]` and `[12,13,15]`. -/
theorem find_least_seam_example :
    find_least_seam [[1, 2, 3], [4, 5, 6], [7, 8, 9]] 3 3 = some 12 ∧
      seamDP [[1, 2, 3], [4, 5, 6], [7, 8, 9]] 3 1 = [some 1, some 2, some 3] ∧
      seamDP [[1, 2, 3], [4, 5, 6], [7, 8, 9]] 3 2 = [some 5, some 6, some 8] ∧
      seamDP [[1, 2, 3], [4, 5, 6], [7, 8, 9]] 3 3 = [some 12, some 13, some 15] := by
  exact ⟨by decide, by decide, by decide, by decide⟩

/-- C2: the code diverges from the spec's seam recurrence.  On the grid
`[[10, 0], [100, 0]]` the code's window check (`n > k + j` for the 1-based
column `j`, while indexing `dp[i-2][k+j-1]`) makes the last column skip its
own predecessor and column 0 wrap to the last column: the code's dp row 1 is
`[100, 10]` and it returns `10`, while the spec recurrence gives row `[100, 0]`
and `0` — which is the true minimum seam cost of this grid. -/
theorem find_least_seam_window_bug :
    find_least_seam [[10, 0], [100, 0]] 2 2 = some 10 ∧
      seamDP [[10, 0], [100, 0]] 2 2 = [some 100, some 10] ∧
      specSeamResult [[10, 0], [100, 0]] 2 2 = 0 ∧
      specSeamDP [[10, 0], [100, 0]] 2 2 = [100, 0] := by
  exact ⟨by decide, by decide, by decide, by decide⟩

/-! ## Monotonicity of `find_least_seam` in the grid entries (claim C7) -/

theorem getD_set {α : Type} :
    ∀ (l : List α) (i j : Nat) (x d : α),
      (l.set i x).getD j d = if i = j ∧ j < l.length then x else l.getD j d
  | [], i, j, x, d => by
    simp
  | a :: l, 0, 0, x, d => by
    simp
  | a :: l, 0, j + 1, x, d => by
    rw [if_neg (by omega)]
    simp [List.getD_cons_succ]
  | a :: l, i + 1, 0, x, d => by
    rw [if_neg (by omega)]
    simp [List.getD_cons_zero]
  | a :: l, i + 1, j + 1, x, d => by
    simp only [List.set, List.getD_cons_succ, List.length_cons]
    rw [getD_set l i j x d]
    by_cases h : i = j ∧ j < l.length
    · rw [if_pos h, if_pos (by omega)]
    · rw [if_neg h, if_neg (by omega)]

/-- Pointwise order on dp rows (same length, `oleB` entrywise). -/
def rle (xs ys : List (Option Int)) : Prop :=
  List.Forall₂ (fun a b => oleB a b = true) xs ys

theorem oleB_refl (a : Option Int) : oleB a a = true := by
  cases a <;> simp [oleB]

theorem oleB_none_top (a : Option Int) : oleB a none = true := by
  cases a <;> rfl

theorem omin_mono {a a' b b' : Option Int} (ha : oleB a a' = true)
    (hb : oleB b b' = true) : oleB (omin a b) (omin a' b') = true := by
  cases a' <;> cases b' <;> cases a <;> cases b <;>
    simp_all [oleB, omin]

theorem oadd_mono {a a' b b' : Option Int} (ha : oleB a a' = true)
    (hb : oleB b b' = true) : oleB (oadd a b) (oadd a' b') = true := by
  cases a' <;> cases b' <;> cases a <;> cases b <;>
    first
    | (simp_all [oleB, oadd]; omega)
    | simp_all [oleB, oadd]

theorem rle_length {xs ys : List (Option Int)} (h : rle xs ys) :
    xs.length = ys.length :=
  List.Forall₂.length_eq h

theorem rle_getD {xs ys : List (Option Int)} (h : rle xs ys) :
    ∀ t, oleB (xs.getD t none) (ys.getD t none) = true := by
  induction h with
  | nil => intro t; exact oleB_refl _
  | cons h₁ _ ih =>
    intro t
    cases t with
    | zero => exact h₁
    | succ t => exact ih t

theorem pyGetO_mono {xs ys : List (Option Int)} (h : rle xs ys) (idx : Int) :
    oleB (pyGetO xs idx) (pyGetO ys idx) = true := by
  unfold pyGetO
  by_cases hneg : idx < 0
  · rw [if_pos hneg, if_pos hneg, rle_length h]
    exact rle_getD h _
  · rw [if_neg hneg, if_neg hneg]
    exact rle_getD h _

theorem seamStep_mono {prev prev' : List (Option Int)} (n j : Nat)
    {acc acc' : Option Int} (hp : rle prev prev') (hacc : oleB acc acc' = true)
    (k : Int) : oleB (seamStep prev n j acc k) (seamStep prev' n j acc' k) = true := by
  unfold seamStep
  by_cases hc : (0 : Int) ≤ k + (j : Int) ∧ k + (j : Int) < (n : Int)
  · rw [if_pos hc, if_pos hc]
    exact omin_mono hacc (pyGetO_mono hp _)
  · rw [if_neg hc, if_neg hc]
    exact hacc

theorem seamFold_mono {prev prev' : List (Option Int)} (n j : Nat)
    (hp : rle prev prev') :
    ∀ (l : List Int) {acc acc' : Option Int}, oleB acc acc' = true →
      oleB (l.foldl (seamStep prev n j) acc) (l.foldl (seamStep prev' n j) acc') = true
  | [], _, _, hacc => hacc
  | k :: ks, _, _, hacc =>
    seamFold_mono n j hp ks (seamStep_mono n j hp hacc k)

theorem seamCell_mono {prev prev' : List (Option Int)} (n j : Nat)
    (hp : rle prev prev') : oleB (seamCell prev n j) (seamCell prev' n j) = true :=
  seamFold_mono n j hp _ rfl

theorem forall2_map {α β : Type} (l : List α) (f g : α → β) (P : β → β → Prop)
    (h : ∀ x ∈ l, P (f x) (g x)) : List.Forall₂ P (l.map f) (l.map g) := by
  induction l with
  | nil => exact List.Forall₂.nil
  | cons x xs ih =>
    exact List.Forall₂.cons (h x (by simp))
      (ih (fun y hy => h y (List.mem_cons_of_mem _ hy)))

theorem seamRow_mono {drow drow' : List Int} {prev prev' : List (Option Int)}
    (n : Nat) (hd : ∀ t, drow.getD t 0 ≤ drow'.getD t 0) (hp : rle prev prev') :
    rle (seamRow drow prev n) (seamRow drow' prev' n) := by
  unfold seamRow rle
  apply forall2_map
  intro j _
  exact oadd_mono (by simpa [oleB] using hd (j - 1)) (seamCell_mono n j hp)

/-- Pointwise order between two grids, as the embedding reads them. -/
def gridLE (d d' : List (List Int)) : Prop :=
  ∀ i t, (d.getD i []).getD t 0 ≤ (d'.getD i []).getD t 0

theorem seamDP_mono {d d' : List (List Int)} (n : Nat) (hd : gridLE d d') :
    ∀ i, rle (seamDP d n i) (seamDP d' n i) := by
  intro i
  induction i with
  | zero => exact List.Forall₂.nil
  | succ i ih =>
    cases i with
    | zero =>
      apply forall2_map
      intro j _
      simpa [oleB] using hd 0 (j - 1)
    | succ i' =>
      exact seamRow_mono n (hd (i' + 1)) ih

theorem foldl_omin_mono :
    ∀ {xs ys : List (Option Int)}, rle xs ys →
      ∀ {a a' : Option Int}, oleB a a' = true →
        oleB (xs.foldl omin a) (ys.foldl omin a') = true := by
  intro xs ys h
  induction h with
  | nil => intro a a' hacc; exact hacc
  | cons h₁ _ ih => intro a a' hacc; exact ih (omin_mono hacc h₁)

/-- C7: increasing any single grid cell can never decrease the result of
`find_least_seam` (with `none` = `inf` as the top value). -/
theorem find_least_seam_monotone (d : List (List Int)) (m n r c : Nat)
    (v : Int) (hv : (d.getD r []).getD c 0 ≤ v) :
    oleB (find_least_seam d m n)
      (find_least_seam (updateGrid d r c v) m n) = true := by
  have hgrid : gridLE d (updateGrid d r c v) := by
    intro i t
    unfold updateGrid
    rw [getD_set d r i ((d.getD r []).set c v) []]
    by_cases hir : r = i ∧ i < d.length
    · rw [if_pos hir, ← hir.1, getD_set (d.getD r []) c t v 0]
      by_cases hct : c = t ∧ t < (d.getD r []).length
      · rw [if_pos hct, ← hct.1]
        exact hv
      · rw [if_neg hct]
    · rw [if_neg hir]
  unfold find_least_seam
  exact foldl_omin_mono (seamDP_mono n hgrid m) rfl

/-- Witness for C7: raising the top-left cell of `[[1,2],[3,4]]` to `5`. -/
theorem find_least_seam_monotone_witness :
    (([[(1 : Int), 2], [3, 4]].getD 0 []).getD 0 0 ≤ 5) ∧
      oleB (find_least_seam [[(1 : Int), 2], [3, 4]] 2 2)
        (find_least_seam (updateGrid [[(1 : Int), 2], [3, 4]] 0 0 5) 2 2) = true :=
  ⟨by decide, find_least_seam_monotone [[(1 : Int), 2], [3, 4]] 2 2 0 0 5 (by decide)⟩

end Gartus
